import Mathlib

/-!
Verification of the aerogel overlay renderer (`src/overlay.rs`).

Shallow embedding conventions:
* Rust strings are lists of characters (`Str`).
* Pixel widths (`f32` in the source) are rationals; the font is an
  abstract per-character advance-width function, matching the fact that
  `measure_text_width` sums per-glyph advance widths.
* Stateful event handlers are step functions folded over event lists.
* File reads are `Option Str` values (`none` = read error).
-/

namespace Aerogel

/-- Rust strings, modelled as lists of characters. -/
abbrev Str := List Char

/-- Rust `char::is_whitespace`: the Unicode White_Space property. -/
def rustIsWhitespace (c : Char) : Bool :=
  let n := c.toNat
  n == 0x9 || n == 0xA || n == 0xB || n == 0xC || n == 0xD || n == 0x20 ||
  n == 0x85 || n == 0xA0 || n == 0x1680 ||
  (decide (0x2000 ≤ n) && decide (n ≤ 0x200A)) ||
  n == 0x2028 || n == 0x2029 || n == 0x202F || n == 0x205F || n == 0x3000

/-- Drop the longest suffix of characters satisfying `p`
(Rust `str::trim_end_matches` with a char predicate). -/
def dropTrailing (p : Char → Bool) (s : Str) : Str :=
  (s.reverse.dropWhile p).reverse

/-- Rust `str::trim_start`. -/
def rustTrimStart (s : Str) : Str := s.dropWhile rustIsWhitespace

/-- Rust `str::trim_end`. -/
def rustTrimEnd (s : Str) : Str := dropTrailing rustIsWhitespace s

/-- Rust `str::trim`. -/
def rustTrim (s : Str) : Str := rustTrimEnd (rustTrimStart s)

/-! ### The wrap-engine tokenizer

Embeds `split_segment_into_tokens` (src/overlay.rs:1166-1199): chop a
segment into maximal runs of whitespace or of non-whitespace characters.
The Rust loop keeps a growing `current_token` whose class is
`in_whitespace`; `splitTokensGo` carries the same state, emitting tokens
in order instead of pushing to a vector. -/

def splitTokensGo : List Char → Str → Bool → List Str
  | [], cur, _ => if cur.isEmpty then [] else [cur]
  | c :: rest, cur, inWs =>
    let cw := rustIsWhitespace c
    if cur.isEmpty then splitTokensGo rest [c] cw
    else if cw == inWs then splitTokensGo rest (cur ++ [c]) inWs
    else cur :: splitTokensGo rest [c] cw

/-- Embeds `split_segment_into_tokens`.  The initial `in_whitespace`
value comes from peeking the first character, exactly as the source
does (it is in fact overwritten before first use). -/
def split_segment_into_tokens (s : Str) : List Str :=
  splitTokensGo s [] (match s with | [] => false | c :: _ => rustIsWhitespace c)

/-! ### The line wrap engine -/

/-- `syntect::highlighting::Color`: an RGBA quadruple of bytes. -/
structure SynColor where
  r : Nat
  g : Nat
  b : Nat
  a : Nat
  deriving DecidableEq, Repr

/-- The part of `syntect::highlighting::Style` the renderer uses:
the foreground color. -/
structure SynStyle where
  foreground : SynColor
  deriving DecidableEq, Repr

/-- A styled token, the wrap engine's unit of output. -/
abbrev Tok := SynStyle × Str

/-- Embeds `measure_text_width` (src/overlay.rs:1419-1428): lay the text
out and sum each glyph's horizontal advance width.  `rusttype` maps each
character to one glyph, so the width is the sum of the per-character
advance widths given by the font `adv`. -/
def measure_text_width (adv : Char → ℚ) (t : Str) : ℚ :=
  (t.map adv).sum

/-- Summed pixel width of the tokens on one wrapped line. -/
def lineWidth (adv : Char → ℚ) (line : List Tok) : ℚ :=
  (line.map (fun t => measure_text_width adv t.2)).sum

/-- The per-range cleanup in `wrap_line_with_syntax`:
`text_segment.trim_end_matches('\n').trim_end_matches('\r')`. -/
def cleanSegment (s : Str) : Str :=
  dropTrailing (fun c => c == '\r') (dropTrailing (fun c => c == '\n') s)

/-- The styled token stream the wrap loop consumes: each range is
cleaned, tokenized, and its tokens tagged with the range's style.
(The source's `continue` on an empty cleaned segment is the `[]`
token list.) -/
def styledTokens (ranges : List (SynStyle × Str)) : List Tok :=
  (ranges.map (fun r =>
    (split_segment_into_tokens (cleanSegment r.2)).map (fun t => (r.1, t)))).flatten

/-- One iteration of the wrap loop body in `wrap_line_with_syntax`
(src/overlay.rs:1390-1403): the state is
`(wrapped_lines, current_line_segments, current_line_pixel_width)`. -/
def wrapStep (adv : Char → ℚ) (maxW : ℚ) :
    List (List Tok) × List Tok × ℚ → Tok → List (List Tok) × List Tok × ℚ
  | (acc, cur, curW), tok =>
    let w := measure_text_width adv tok.2
    if curW + w > maxW ∧ curW > 0 then
      (acc ++ [cur], [tok], w)
    else
      (acc, cur ++ [tok], curW + w)

/-- The epilogue of `wrap_line_with_syntax`
(src/overlay.rs:1406-1416): flush a non-empty current line, and replace
an empty result by one empty line. -/
def wrapFinish (fin : List (List Tok) × List Tok × ℚ) : List (List Tok) :=
  let ls := fin.1 ++ (if fin.2.1.isEmpty then [] else [fin.2.1])
  if ls.isEmpty then [[]] else ls

/-- Embeds `wrap_line_with_syntax` (src/overlay.rs:1370-1417).  The
nested loops over ranges and tokens thread the state
`(wrapped_lines, current_line_segments, current_line_pixel_width)`;
afterwards a non-empty current line is flushed, and an empty result is
replaced by one empty line. -/
def wrap_line_with_ranges (adv : Char → ℚ) (maxW : ℚ)
    (ranges : List (SynStyle × Str)) : List (List Tok) :=
  wrapFinish (ranges.foldl (fun st r =>
    (split_segment_into_tokens (cleanSegment r.2)).foldl
      (fun st2 t => wrapStep adv maxW st2 (r.1, t)) st) ([], [], 0))

/-- A wrapped line as the spec describes one: its summed width fits, or
it is a single token that alone is wider than the limit. -/
def GoodLine (adv : Char → ℚ) (maxW : ℚ) (line : List Tok) : Prop :=
  lineWidth adv line ≤ maxW ∨
    ∃ st t, line = [(st, t)] ∧ maxW < measure_text_width adv t

/-! ### The markdown segmenter

`parse_markdown` (src/overlay.rs:835-903) folds over the event stream of
the `pulldown_cmark` crate's `Parser`.  The fold itself is embedded from
the source; the event stream of the external parser crate is modelled
from the spec below (`modelEvents`). -/

/-- `pulldown_cmark::CodeBlockKind`, as matched by the source. -/
inductive CodeKind
  | fenced (lang : Str)
  | indented
  deriving DecidableEq, Repr

/-- The `pulldown_cmark` events `parse_markdown` inspects; every event
it ignores is `other`. -/
inductive MdEvent
  | startCode (k : CodeKind)
  | endCode
  | textEv (s : Str)
  | softBreak
  | hardBreak
  | startPara
  | endPara
  | other
  deriving DecidableEq, Repr

/-- `ContentBlock` from src/overlay.rs:829-832. -/
inductive ContentBlock
  | code (lang : Str) (body : Str)
  | text (body : Str)
  deriving DecidableEq, Repr

/-- Rust `str::ends_with`. -/
def strEndsWith (s suffix : Str) : Bool := suffix.isSuffixOf s

/-- The mutable locals of `parse_markdown`'s event loop. -/
structure MdAcc where
  blocks : List ContentBlock
  current_text : Str
  current_code : Str
  current_lang : Str
  in_code_block : Bool
  deriving DecidableEq, Repr

/-- One iteration of `parse_markdown`'s `for event in parser` loop
(src/overlay.rs:844-895), embedded case by case. -/
def mdStep (s : MdAcc) (e : MdEvent) : MdAcc :=
  match e with
  | .startCode k =>
    let s1 :=
      if (rustTrim s.current_text).isEmpty = false then
        { s with blocks := s.blocks ++ [ContentBlock.text (rustTrimEnd s.current_text)],
                 current_text := [] }
      else if s.current_text.isEmpty = false then
        { s with blocks := s.blocks ++ [ContentBlock.text s.current_text],
                 current_text := [] }
      else s
    { s1 with in_code_block := true,
              current_lang := match k with
                | .fenced l => l
                | .indented => "txt".toList }
  | .endCode =>
    let s1 :=
      if s.current_code.isEmpty = false then
        { s with blocks := s.blocks ++ [ContentBlock.code s.current_lang s.current_code],
                 current_code := [] }
      else s
    { s1 with in_code_block := false }
  | .textEv t =>
    if s.in_code_block then { s with current_code := s.current_code ++ t }
    else { s with current_text := s.current_text ++ t }
  | .softBreak =>
    if s.in_code_block then s else { s with current_text := s.current_text ++ [' '] }
  | .hardBreak =>
    if s.in_code_block then s else { s with current_text := s.current_text ++ ['\n'] }
  | .endPara =>
    if s.in_code_block = false ∧ strEndsWith s.current_text "\n\n".toList = false then
      { s with current_text := s.current_text ++ "\n\n".toList }
    else s
  | .startPara => s
  | .other => s

/-- Embeds `parse_markdown` (src/overlay.rs:835-903): fold the event
loop, then push any remaining text (untrimmed) as a final Text block. -/
def parse_markdown (es : List MdEvent) : List ContentBlock :=
  let fin := es.foldl mdStep ⟨[], [], [], [], false⟩
  if fin.current_text.isEmpty = false then
    fin.blocks ++ [ContentBlock.text fin.current_text]
  else fin.blocks

/-! ### Spec-modelled markdown event stream

`Parser::new(text)` comes from the external `pulldown_cmark` crate,
whose code is not in this repository.  `modelEvents` is modelled from
the spec, which scopes markdown handling to "only headings/paragraphs/
fenced code/line breaks": blank-line-separated paragraphs whose lines
are joined by soft breaks, and triple-backtick fenced code blocks whose
language tag is the fence's info string and whose body lines arrive as
text events each with a trailing newline. -/

/-- Split into lines at each newline character. -/
def splitLinesGo : List Char → Str → List Str
  | [], cur => [cur]
  | c :: rest, cur =>
    if c = '\n' then cur :: splitLinesGo rest []
    else splitLinesGo rest (cur ++ [c])

/-- Modelled from the spec: the line structure of the input text. -/
def splitLines (s : Str) : List Str := splitLinesGo s []

/-- A blank line: only whitespace. -/
def isBlankLine (l : Str) : Bool := l.all rustIsWhitespace

/-- A code-fence line: starts with three backticks. -/
def isFenceLine (l : Str) : Bool := "```".toList.isPrefixOf l

/-- The fence's language token: the info string after the backticks. -/
def fenceLang (l : Str) : Str := rustTrim (l.drop 3)

/-- A segment of the input: a paragraph (its non-blank lines) or a
fenced code region (language tag and body lines). -/
inductive MdSeg
  | para (ls : List Str)
  | codeSeg (lang : Str) (body : List Str)
  deriving DecidableEq, Repr

/-- Modelled from the spec: group lines into paragraphs and fenced code
regions.  The second argument is the open fence (language, body so far),
the third the current paragraph's lines.  An unterminated fence still
yields its code segment at end of input. -/
def segLinesGo : List Str → Option (Str × List Str) → List Str → List MdSeg
  | [], some (lang, body), _ => [MdSeg.codeSeg lang body]
  | [], none, cur => if cur.isEmpty then [] else [MdSeg.para cur]
  | l :: rest, some (lang, body), cur =>
    if isFenceLine l then MdSeg.codeSeg lang body :: segLinesGo rest none []
    else segLinesGo rest (some (lang, body ++ [l])) cur
  | l :: rest, none, cur =>
    if isFenceLine l then
      (if cur.isEmpty then [] else [MdSeg.para cur]) ++
        segLinesGo rest (some (fenceLang l, [])) []
    else if isBlankLine l then
      (if cur.isEmpty then [] else [MdSeg.para cur]) ++ segLinesGo rest none []
    else segLinesGo rest none (cur ++ [l])

/-- Modelled from the spec: the events one segment produces.  Paragraph
lines arrive as text events joined by soft breaks; code body lines as
text events carrying their trailing newline. -/
def segEvents : MdSeg → List MdEvent
  | .para ls =>
    MdEvent.startPara ::
      (List.intersperse MdEvent.softBreak (ls.map MdEvent.textEv) ++ [MdEvent.endPara])
  | .codeSeg lang body =>
    MdEvent.startCode (CodeKind.fenced lang) ::
      (body.map (fun l => MdEvent.textEv (l ++ ['\n'])) ++ [MdEvent.endCode])

/-- Modelled from the spec: the event stream `pulldown_cmark`'s parser
produces for the markdown subset in scope. -/
def modelEvents (s : Str) : List MdEvent :=
  ((segLinesGo (splitLines s) none []).map segEvents).flatten

/-- The blank-separated paragraphs of a line list (used to state what
the segmenter returns on fence-free input). -/
def paragraphsGo : List Str → List Str → List (List Str)
  | [], cur => if cur.isEmpty then [] else [cur]
  | l :: rest, cur =>
    if isBlankLine l then
      (if cur.isEmpty then [] else [cur]) ++ paragraphsGo rest []
    else paragraphsGo rest (cur ++ [l])

/-- A paragraph's lines joined by single spaces (soft breaks). -/
def spaceJoin : List Str → Str
  | [] => []
  | [l] => l
  | l :: rest => l ++ [' '] ++ spaceJoin rest

/-! ### Vertical scrolling

The two places that write `scroll_offset_y` outside a workspace switch:
the `Axis` arm of the pointer dispatcher (src/overlay.rs:711-722) and
the text-change branch of `update_text_from_log`
(src/overlay.rs:411-425).  Heights and offsets (`f32` in the source)
are rationals. -/

structure ScrollState where
  scroll_offset_y : ℚ
  max_scroll_offset_y : ℚ
  deriving DecidableEq, Repr

/-- A scroll-relevant event: a vertical-scroll axis event carrying
`value / scroll_speed`, or a text-update pass that measured a new total
content height and recomputed the panel height. -/
inductive ScrollEvent
  | axis (amount : ℚ)
  | textUpdate (totalTextHeight panelHeight : ℚ) (autoScroll : Bool)

/-- Embeds the two `scroll_offset_y` updates: the axis handler computes
`(scroll_offset_y + amount).max(0.0).min(max_scroll_offset_y)`; a text
change sets `max_scroll_offset_y = (total - height).max(0.0)` and then
snaps (auto-scroll) or clamps the offset. -/
def scrollStep (s : ScrollState) (e : ScrollEvent) : ScrollState :=
  match e with
  | .axis amount =>
    { s with scroll_offset_y := min (max (s.scroll_offset_y + amount) 0) s.max_scroll_offset_y }
  | .textUpdate total panelH auto =>
    let m := max (total - panelH) 0
    { scroll_offset_y := if auto then m else min s.scroll_offset_y m,
      max_scroll_offset_y := m }

/-! ### Overlay height

`AppState::new` (src/overlay.rs:246-248) and `update_text_from_log`
(src/overlay.rs:401-409) set `height = calculate_text_height(..).min(max_height)`;
the layer-surface `Configure` handler (src/overlay.rs:626-639) overwrites
`width`/`height` with the compositor-assigned values whenever both are
positive.  `calcH` abstracts `calculate_text_height` as a function of the
current width and text. -/

structure SizeState where
  text : Str
  width : Nat
  height : Nat
  deriving DecidableEq, Repr

inductive SizeEvent
  | textUpdate (newText : Str)
  | configure (w h : Nat)
  deriving DecidableEq, Repr

/-- Whether an event is a text-update pass. -/
def isTextUpdate : SizeEvent → Bool
  | .textUpdate _ => true
  | .configure _ _ => false

/-- Embeds the height writes: a changed text recomputes
`height = calcH(width, text).min(maxH)`; `Configure` overwrites both
dimensions when positive. -/
def sizeStep (calcH : Nat → Str → Nat) (maxH : Nat) (s : SizeState) (e : SizeEvent) :
    SizeState :=
  match e with
  | .textUpdate t =>
    if t ≠ s.text then
      { text := t, width := s.width, height := min (calcH s.width t) maxH }
    else s
  | .configure w h =>
    if 0 < w ∧ 0 < h then { s with width := w, height := h } else s

/-- Embeds the startup state of `AppState::new`: configured width `w0`,
height measured from the initial text and capped at `maxH`. -/
def initSize (calcH : Nat → Str → Nat) (maxH w0 : Nat) (t0 : Str) : SizeState :=
  { text := t0, width := w0, height := min (calcH w0 t0) maxH }

/-! ### Buffer lifecycle

`draw_overlay` (src/overlay.rs:466-499).  The model records the
protocol requests the function issues, in order, as a trace; buffers are
numbered by a counter. -/

inductive BufAction
  | destroyBuf (id : Nat)
  | createBuf (id : Nat)
  | attach (id : Nat)
  | damage
  | commit
  deriving DecidableEq, Repr

structure BufState where
  current_buffer : Option Nat
  visible : Bool
  nextId : Nat
  deriving DecidableEq, Repr

/-- Embeds `draw_overlay`: when visible, first destroy the old buffer if
any, then (if shared-memory allocation succeeds) create the new buffer,
attach it, damage the full surface and commit. -/
def draw_overlay (allocOk : Bool) (s : BufState) : BufState × List BufAction :=
  if s.visible = false then (s, [])
  else
    let destroyActs := match s.current_buffer with
      | some b => [BufAction.destroyBuf b]
      | none => []
    if allocOk then
      ({ current_buffer := some s.nextId, visible := s.visible, nextId := s.nextId + 1 },
        destroyActs ++ [BufAction.createBuf s.nextId, BufAction.attach s.nextId,
          BufAction.damage, BufAction.commit])
    else ({ s with current_buffer := none }, destroyActs)

/-! ### Workspace switching

`check_for_workspace_switch` (src/overlay.rs:303-313). -/

structure WsState where
  current_workspace : Nat
  scroll_offset_y : ℚ
  margin_x : Int
  margin_y : Int
  visible : Bool
  text_changed : Bool
  deriving DecidableEq, Repr

/-- Embeds `check_for_workspace_switch`: when the freshly read id is
present, differs from the current one and is positive, adopt it, reset
the scroll offset and force a redraw (which raises `text_changed`);
otherwise do nothing. -/
def check_for_workspace_switch (readWs : Option Nat) (s : WsState) : WsState :=
  match readWs with
  | some n =>
    if n ≠ s.current_workspace ∧ 0 < n then
      { s with current_workspace := n, scroll_offset_y := 0, text_changed := true }
    else s
  | none => s

/-- The per-workspace text source file `.tmp{id}`
(src/overlay.rs:394). -/
def activeTextSource (ws : Nat) : Str := ".tmp".toList ++ Nat.toDigits 10 ws

/-! ### Dragging and margins

`update_drag` (src/overlay.rs:518-557) and the pointer dispatcher
(src/overlay.rs:649-726).  Pointer coordinates (`f64`) are rationals;
margins are `i32` integers. -/

def i32Min : Int := -(2 ^ 31)

def i32Max : Int := 2 ^ 31 - 1

/-- Rust `i32::saturating_sub`. -/
def i32SaturatingSub (a b : Int) : Int := max i32Min (min i32Max (a - b))

/-- Rust `u32 as i32` (two's-complement reinterpretation). -/
def u32AsI32 (n : Nat) : Int := if n < 2 ^ 31 then (n : Int) else (n : Int) - 2 ^ 32

/-- Rust `f64 as i32`: truncate toward zero, saturating at the i32
bounds. -/
def ratAsI32 (q : ℚ) : Int :=
  max i32Min (min i32Max (if 0 ≤ q then ⌊q⌋ else -⌊-q⌋))

structure DragSt where
  is_dragging : Bool
  start_x : ℚ
  start_y : ℚ
  deriving DecidableEq, Repr

structure PtrState where
  drag : DragSt
  margin_x : Int
  margin_y : Int
  pointer_x : ℚ
  pointer_y : ℚ
  output_width : Int
  output_height : Int
  width : Nat
  height : Nat
  deriving DecidableEq, Repr

/-- `output_width.saturating_sub(width as i32).max(0)`. -/
def maxMarginX (s : PtrState) : Int :=
  max (i32SaturatingSub s.output_width (u32AsI32 s.width)) 0

/-- `output_height.saturating_sub(height as i32).max(0)`. -/
def maxMarginY (s : PtrState) : Int :=
  max (i32SaturatingSub s.output_height (u32AsI32 s.height)) 0

/-- Embeds `update_drag`: when dragging, move the margins by the pointer
delta since the last motion, clamped with `.max(0).min(max_dim)`, and
re-anchor the drag at the new pointer position.  (The margin-log append
and the `set_margin`/`commit` requests do not touch the state.) -/
def update_drag (s : PtrState) (sx sy : ℚ) : PtrState :=
  if s.drag.is_dragging = false then s
  else
    let dx := sx - s.drag.start_x
    let dy := sy - s.drag.start_y
    let nmx := s.margin_x + ratAsI32 dx
    let nmy := s.margin_y + ratAsI32 dy
    { s with
        margin_x := min (max nmx 0) (maxMarginX s),
        margin_y := min (max nmy 0) (maxMarginY s),
        drag := { s.drag with start_x := sx, start_y := sy } }

/-- The pointer events of the `Dispatch<WlPointer>` implementation. -/
inductive PtrEvent
  | enter (x y : ℚ)
  | leave
  | motion (x y : ℚ)
  | button (code : Nat) (pressed : Bool)
  | axis (amount : ℚ)

/-- Embeds the pointer dispatcher: `Enter`/`Motion` track the pointer,
`Motion` while dragging calls `update_drag`, left button press starts a
drag anchored at the tracked position, release stops it.  `Leave` and
`Axis` do not touch margins. -/
def ptrStep (s : PtrState) (e : PtrEvent) : PtrState :=
  match e with
  | .enter x y => { s with pointer_x := x, pointer_y := y }
  | .leave => s
  | .motion x y =>
    let s1 := { s with pointer_x := x, pointer_y := y }
    if s1.drag.is_dragging then update_drag s1 x y else s1
  | .button code pressed =>
    if code = 0x110 then
      if pressed then
        { s with drag := { is_dragging := true, start_x := s.pointer_x, start_y := s.pointer_y } }
      else
        { s with drag := { s.drag with is_dragging := false } }
    else s
  | .axis _ => s

/-- Both margins lie in their clamping ranges. -/
def marginsInRange (s : PtrState) : Prop :=
  0 ≤ s.margin_x ∧ s.margin_x ≤ maxMarginX s ∧
  0 ≤ s.margin_y ∧ s.margin_y ≤ maxMarginY s

instance (s : PtrState) : Decidable (marginsInRange s) := by
  unfold marginsInRange; infer_instance

/-! ### The margin log parser

`load_margins_from_log` (src/overlay.rs:315-373), as a pure function of
the log's lines.  (The side effect of rewriting the log file keeps only
the last `Dragging:` line and does not affect the returned margins.) -/

/-- Rust `str::find` for a literal pattern: index of the first
occurrence of `needle`. -/
def findSub (needle : Str) : Str → Option Nat
  | [] => if needle.isEmpty then some 0 else none
  | c :: rest =>
    if needle.isPrefixOf (c :: rest) then some 0
    else (findSub needle rest).map (· + 1)

/-- Rust `str::contains` for a literal pattern. -/
def containsSub (needle hay : Str) : Bool := (findSub needle hay).isSome

/-- Value of a digit string (helper for `parseI32`). -/
def digitsVal (s : Str) : Nat := s.foldl (fun a c => a * 10 + (c.toNat - 48)) 0

/-- Rust `str::parse::<i32>`: optional sign, at least one digit, all
digits, result within the i32 range. -/
def parseI32 (s : Str) : Option Int :=
  let signDigits : Int × Str :=
    match s with
    | '-' :: rest => (-1, rest)
    | '+' :: rest => (1, rest)
    | _ => (1, s)
  if signDigits.2.isEmpty then none
  else if signDigits.2.all (fun c => c.isDigit) then
    let v : Int := signDigits.1 * (digitsVal signDigits.2 : Int)
    if i32Min ≤ v ∧ v ≤ i32Max then some v else none
  else none

/-- The `x=` extraction of `load_margins_from_log`: text between `x=`
and the next comma, trimmed, parsed as i32. -/
def extractX (line : Str) : Option Int :=
  match findSub "x=".toList line with
  | none => none
  | some i =>
    let after := line.drop (i + 2)
    match findSub [','] after with
    | none => none
    | some j => parseI32 (rustTrim (after.take j))

/-- The `y=` extraction: the rest of the line after `y=`, trimmed, with
trailing non-digit non-minus characters removed, parsed as i32. -/
def extractY (line : Str) : Option Int :=
  match findSub "y=".toList line with
  | none => none
  | some k =>
    let ystr := line.drop (k + 2)
    parseI32 (dropTrailing (fun c => !c.isDigit && c != '-') (rustTrim ystr))

/-- Embeds `load_margins_from_log` on the log's lines: scan every
`Dragging:` line, remember the last successfully parsed x and y values,
and return the pair only when both were found. -/
def load_margins_from_log (ls : List Str) : Option (Int × Int) :=
  let fin := ls.foldl (fun (acc : Option Int × Option Int) line =>
    if containsSub "Dragging:".toList line then
      ((extractX line).elim acc.1 some, (extractY line).elim acc.2 some)
    else acc) (none, none)
  match fin with
  | (some x, some y) => some (x, y)
  | _ => none

/-! ### Text loading and the default help text

`load_text_from_log` (src/overlay.rs:375-386), `get_default_text`
(src/overlay.rs:125-145), and the text selection in
`update_text_from_log` (src/overlay.rs:394-395).  A file read is an
`Option Str`: `none` when the file is missing or unreadable. -/

/-- Embeds `load_text_from_log`: a read error or whitespace-only
content yields `none`. -/
def load_text_from_log (content : Option Str) : Option Str :=
  match content with
  | some c => if (rustTrim c).isEmpty then none else some c
  | none => none

/-- Embeds `get_default_text`: the static keybinding/help listing,
formatted from the seven configured keybinding strings. -/
def get_default_text (show_hide type_text take_screenshot record_audio
    solve_key clear_key switch_key : Str) : Str :=
  "# Keybindings\n```\nShow / Hide          ".toList ++ show_hide ++
  "\nType Text            ".toList ++ type_text ++
  "\nTake Screenshot      ".toList ++ take_screenshot ++
  "\nRecord Audio         ".toList ++ record_audio ++
  "\nSolve                ".toList ++ solve_key ++
  "\nClear                ".toList ++ clear_key ++
  "\nSwitch Workspace     ".toList ++ switch_key ++ "+n\n```".toList

/-- The text `update_text_from_log` adopts:
`load_text_from_log(file).unwrap_or_else(get_default_text)`. -/
def update_text_result (content : Option Str) (show_hide type_text take_screenshot
    record_audio solve_key clear_key switch_key : Str) : Str :=
  (load_text_from_log content).getD
    (get_default_text show_hide type_text take_screenshot record_audio
      solve_key clear_key switch_key)

/-! ## Theorems -/

/-! ### Tokenizer (claim C10) -/

theorem splitTokensGo_flatten : ∀ (cs : List Char) (cur : Str) (b : Bool),
    (splitTokensGo cs cur b).flatten = cur ++ cs := by
  intro cs
  induction cs with
  | nil =>
    intro cur b
    simp only [splitTokensGo]
    split
    · next h => simp [List.isEmpty_iff.mp h]
    · simp
  | cons c rest ih =>
    intro cur b
    simp only [splitTokensGo]
    split_ifs with h1 h2
    · rw [ih]
      simp [List.isEmpty_iff.mp h1]
    · rw [ih]
      simp
    · simp only [List.flatten_cons, ih]
      simp

theorem splitTokensGo_ne_nil : ∀ (cs : List Char) (cur : Str) (b : Bool),
    ∀ t ∈ splitTokensGo cs cur b, t ≠ [] := by
  intro cs
  induction cs with
  | nil =>
    intro cur b t ht
    simp only [splitTokensGo] at ht
    split at ht
    · simp at ht
    · next h =>
      simp at ht
      subst ht
      simpa [List.isEmpty_iff] using h
  | cons c rest ih =>
    intro cur b t ht
    simp only [splitTokensGo] at ht
    split_ifs at ht with h1 h2
    · exact ih _ _ t ht
    · exact ih _ _ t ht
    · rcases List.mem_cons.mp ht with h | h
      · subst h
        simpa [List.isEmpty_iff] using h1
      · exact ih _ _ t h

theorem splitTokensGo_uniform : ∀ (cs : List Char) (cur : Str) (b : Bool),
    (∀ c ∈ cur, rustIsWhitespace c = b) →
    ∀ t ∈ splitTokensGo cs cur b, ∀ c1 ∈ t, ∀ c2 ∈ t,
      rustIsWhitespace c1 = rustIsWhitespace c2 := by
  intro cs
  induction cs with
  | nil =>
    intro cur b hcur t ht c1 h1 c2 h2
    simp only [splitTokensGo] at ht
    split at ht
    · simp at ht
    · simp at ht
      subst ht
      rw [hcur c1 h1, hcur c2 h2]
  | cons c rest ih =>
    intro cur b hcur t ht c1 h1 c2 h2
    simp only [splitTokensGo] at ht
    split_ifs at ht with hc1 hc2
    · exact ih [c] _ (by simp) t ht c1 h1 c2 h2
    · refine ih (cur ++ [c]) _ ?_ t ht c1 h1 c2 h2
      intro x hx
      rcases List.mem_append.mp hx with hx | hx
      · exact hcur x hx
      · simp at hx
        subst hx
        exact (beq_iff_eq.mp hc2)
    · rcases List.mem_cons.mp ht with h | h
      · subst h
        rw [hcur c1 h1, hcur c2 h2]
      · exact ih [c] _ (by simp) t h c1 h1 c2 h2

/-- Claim C10: the wrap engine's tokenizer is a lossless partition —
concatenating the tokens reproduces the input, every token is
non-empty, and every token is entirely whitespace or entirely
non-whitespace. -/
theorem split_tokens_lossless_partition (s : Str) :
    (split_segment_into_tokens s).flatten = s ∧
    (∀ t ∈ split_segment_into_tokens s, t ≠ []) ∧
    (∀ t ∈ split_segment_into_tokens s, ∀ c1 ∈ t, ∀ c2 ∈ t,
      rustIsWhitespace c1 = rustIsWhitespace c2) := by
  simp only [split_segment_into_tokens]
  refine ⟨?_, ?_, ?_⟩
  · simpa using splitTokensGo_flatten s [] _
  · exact splitTokensGo_ne_nil s [] _
  · exact splitTokensGo_uniform s [] _ (by simp)

/-! ### Wrap engine (claim C1) -/

theorem measure_pos (adv : Char → ℚ) (hpos : ∀ c, 0 < adv c) (t : Str) (ht : t ≠ []) :
    0 < measure_text_width adv t := by
  unfold measure_text_width
  apply List.sum_pos
  · intro x hx
    rcases List.mem_map.mp hx with ⟨c, _, rfl⟩
    exact hpos c
  · simpa using ht

theorem lineWidth_nil (adv : Char → ℚ) : lineWidth adv [] = 0 := rfl

theorem lineWidth_append (adv : Char → ℚ) (l1 l2 : List Tok) :
    lineWidth adv (l1 ++ l2) = lineWidth adv l1 + lineWidth adv l2 := by
  simp [lineWidth]

theorem lineWidth_singleton (adv : Char → ℚ) (tok : Tok) :
    lineWidth adv [tok] = measure_text_width adv tok.2 := by
  simp [lineWidth]

theorem lineWidth_pos (adv : Char → ℚ) (hpos : ∀ c, 0 < adv c) (line : List Tok)
    (hne : line ≠ []) (hts : ∀ t ∈ line, t.2 ≠ []) :
    0 < lineWidth adv line := by
  unfold lineWidth
  apply List.sum_pos
  · intro x hx
    rcases List.mem_map.mp hx with ⟨tok, htok, rfl⟩
    exact measure_pos adv hpos tok.2 (hts tok htok)
  · simpa using hne

theorem styledTokens_ne_nil (ranges : List (SynStyle × Str)) :
    ∀ t ∈ styledTokens ranges, t.2 ≠ [] := by
  intro t ht
  simp only [styledTokens, List.mem_flatten, List.mem_map] at ht
  obtain ⟨chunk, ⟨r, hr, rfl⟩, htc⟩ := ht
  obtain ⟨tok, htok, rfl⟩ := List.mem_map.mp htc
  simp only [split_segment_into_tokens] at htok
  exact splitTokensGo_ne_nil _ [] _ tok htok

theorem wrap_fold_flatten (adv : Char → ℚ) (maxW : ℚ) :
    ∀ (ranges : List (SynStyle × Str)) (st0 : List (List Tok) × List Tok × ℚ),
    ranges.foldl (fun st r =>
      (split_segment_into_tokens (cleanSegment r.2)).foldl
        (fun st2 t => wrapStep adv maxW st2 (r.1, t)) st) st0
    = (styledTokens ranges).foldl (wrapStep adv maxW) st0 := by
  intro ranges
  induction ranges with
  | nil => intro st0; simp [styledTokens]
  | cons r rest ih =>
    intro st0
    rw [List.foldl_cons, ih]
    simp only [styledTokens, List.map_cons, List.flatten_cons, List.foldl_append,
      List.foldl_map]

theorem wrap_fold_inv (adv : Char → ℚ) (maxW : ℚ) (hpos : ∀ c, 0 < adv c) :
    ∀ (toks : List Tok) (acc : List (List Tok)) (cur : List Tok) (curW : ℚ),
    (∀ t ∈ toks, t.2 ≠ []) →
    (∀ l ∈ acc, GoodLine adv maxW l) →
    (∀ t ∈ cur, t.2 ≠ []) →
    curW = lineWidth adv cur →
    (cur = [] ∨ GoodLine adv maxW cur) →
    (∀ l ∈ (toks.foldl (wrapStep adv maxW) (acc, cur, curW)).1, GoodLine adv maxW l) ∧
    (∀ t ∈ (toks.foldl (wrapStep adv maxW) (acc, cur, curW)).2.1, t.2 ≠ []) ∧
    (toks.foldl (wrapStep adv maxW) (acc, cur, curW)).2.2 =
      lineWidth adv (toks.foldl (wrapStep adv maxW) (acc, cur, curW)).2.1 ∧
    ((toks.foldl (wrapStep adv maxW) (acc, cur, curW)).2.1 = [] ∨
      GoodLine adv maxW (toks.foldl (wrapStep adv maxW) (acc, cur, curW)).2.1) ∧
    (toks.foldl (wrapStep adv maxW) (acc, cur, curW)).1.flatten ++
      (toks.foldl (wrapStep adv maxW) (acc, cur, curW)).2.1 =
      acc.flatten ++ cur ++ toks := by
  intro toks
  induction toks with
  | nil =>
    intro acc cur curW _ hacc hcur hw hgood
    exact ⟨hacc, hcur, hw, hgood, by simp⟩
  | cons tok rest ih =>
    intro acc cur curW htoks hacc hcur hw hgood
    have htok2 : tok.2 ≠ [] := htoks tok (by simp)
    have hrest : ∀ t ∈ rest, t.2 ≠ [] := fun t ht => htoks t (by simp [ht])
    have hwpos : 0 < measure_text_width adv tok.2 := measure_pos adv hpos tok.2 htok2
    rw [List.foldl_cons]
    show _ ∧ _ ∧ _ ∧ _ ∧ _
    by_cases hcond : curW + measure_text_width adv tok.2 > maxW ∧ curW > 0
    · have hstep : wrapStep adv maxW (acc, cur, curW) tok =
          (acc ++ [cur], [tok], measure_text_width adv tok.2) := by
        simp [wrapStep, hcond]
      rw [hstep]
      have hcurne : cur ≠ [] := by
        intro hnil
        rw [hnil, lineWidth_nil] at hw
        rw [hw] at hcond
        exact absurd hcond.2 (lt_irrefl 0)
      have hcurgood : GoodLine adv maxW cur := hgood.resolve_left hcurne
      have hacc2 : ∀ l ∈ acc ++ [cur], GoodLine adv maxW l := by
        intro l hl
        rcases List.mem_append.mp hl with hl | hl
        · exact hacc l hl
        · simp at hl
          rw [hl]
          exact hcurgood
      have hnewgood : [tok] = [] ∨ GoodLine adv maxW [tok] := by
        right
        rcases le_or_lt (measure_text_width adv tok.2) maxW with hle | hlt
        · left
          rw [lineWidth_singleton]
          exact hle
        · right
          exact ⟨tok.1, tok.2, by simp, hlt⟩
      obtain ⟨g1, g2, g3, g4, g5⟩ := ih (acc ++ [cur]) [tok] (measure_text_width adv tok.2)
        hrest hacc2 (by intro t ht; simp at ht; rw [ht]; exact htok2)
        (by rw [lineWidth_singleton]) hnewgood
      refine ⟨g1, g2, g3, g4, ?_⟩
      rw [g5]
      simp
    · have hstep : wrapStep adv maxW (acc, cur, curW) tok =
          (acc, cur ++ [tok], curW + measure_text_width adv tok.2) := by
        simp only [wrapStep]
        rw [if_neg hcond]
      rw [hstep]
      have hcur2 : ∀ t ∈ cur ++ [tok], t.2 ≠ [] := by
        intro t ht
        rcases List.mem_append.mp ht with ht | ht
        · exact hcur t ht
        · simp at ht
          rw [ht]
          exact htok2
      have hw2 : curW + measure_text_width adv tok.2 = lineWidth adv (cur ++ [tok]) := by
        rw [lineWidth_append, lineWidth_singleton, hw]
      have hgood2 : cur ++ [tok] = [] ∨ GoodLine adv maxW (cur ++ [tok]) := by
        right
        rcases le_or_lt (curW + measure_text_width adv tok.2) maxW with hle | hgt
        · left
          rw [← hw2]
          exact hle
        · have hcw : ¬ curW > 0 := fun hc => hcond ⟨hgt, hc⟩
          have hnil : cur = [] := by
            by_contra hne
            exact hcw (hw ▸ lineWidth_pos adv hpos cur hne hcur)
          subst hnil
          rcases le_or_lt (measure_text_width adv tok.2) maxW with hle | hlt
          · left
            simp only [List.nil_append]
            rw [lineWidth_singleton]
            exact hle
          · right
            exact ⟨tok.1, tok.2, by simp, hlt⟩
      obtain ⟨g1, g2, g3, g4, g5⟩ := ih acc (cur ++ [tok])
        (curW + measure_text_width adv tok.2) hrest hacc hcur2 hw2 hgood2
      refine ⟨g1, g2, g3, g4, ?_⟩
      rw [g5]
      simp

theorem wrapFinish_spec (adv : Char → ℚ) (maxW : ℚ)
    (fin : List (List Tok) × List Tok × ℚ)
    (hacc : ∀ l ∈ fin.1, GoodLine adv maxW l)
    (hgood : fin.2.1 = [] ∨ GoodLine adv maxW fin.2.1) :
    (∀ line ∈ wrapFinish fin,
      lineWidth adv line ≤ maxW ∨
        (∃ st t, line = [(st, t)] ∧ maxW < measure_text_width adv t) ∨
        line = []) ∧
    (wrapFinish fin).flatten = fin.1.flatten ++ fin.2.1 := by
  obtain ⟨acc, cur, w⟩ := fin
  simp only at hacc hgood
  cases cur with
  | nil =>
    cases acc with
    | nil =>
      refine ⟨?_, by simp [wrapFinish]⟩
      intro line hline
      simp [wrapFinish] at hline
      exact Or.inr (Or.inr hline)
    | cons a as =>
      refine ⟨?_, by simp [wrapFinish]⟩
      intro line hline
      simp only [wrapFinish, List.isEmpty_nil, if_true, List.append_nil] at hline
      rw [if_neg (by simp)] at hline
      rcases hacc line hline with h | h
      · exact Or.inl h
      · exact Or.inr (Or.inl h)
  | cons c cs =>
    have hcur : GoodLine adv maxW (c :: cs) := hgood.resolve_left (by simp)
    have hw : wrapFinish (acc, c :: cs, w) = acc ++ [c :: cs] := by
      simp [wrapFinish]
    rw [hw]
    constructor
    · intro line hline
      rcases List.mem_append.mp hline with hl | hl
      · rcases hacc line hl with h | h
        · exact Or.inl h
        · exact Or.inr (Or.inl h)
      · simp at hl
        subst hl
        rcases hcur with h | h
        · exact Or.inl h
        · exact Or.inr (Or.inl h)
    · simp

/-- Claim C1 (amended): every wrapped line fits in `maxW` by summed
token width, except a line whose single token alone is wider than
`maxW` (such a token occupies its own line), and except the one empty
line emitted when there are no tokens at all (whose summed width `0`
exceeds only a negative `maxW`); no token is ever split — flattening
the wrapped lines gives back the styled token stream unchanged. -/
theorem wrap_line_width_bound (adv : Char → ℚ) (maxW : ℚ)
    (ranges : List (SynStyle × Str)) (hpos : ∀ c : Char, 0 < adv c) :
    (∀ line ∈ wrap_line_with_ranges adv maxW ranges,
      lineWidth adv line ≤ maxW ∨
        (∃ st t, line = [(st, t)] ∧ maxW < measure_text_width adv t) ∨
        line = []) ∧
    (wrap_line_with_ranges adv maxW ranges).flatten = styledTokens ranges := by
  have heq : wrap_line_with_ranges adv maxW ranges =
      wrapFinish ((styledTokens ranges).foldl (wrapStep adv maxW) ([], [], 0)) := by
    unfold wrap_line_with_ranges
    rw [wrap_fold_flatten]
  obtain ⟨g1, g2, g3, g4, g5⟩ := wrap_fold_inv adv maxW hpos (styledTokens ranges) [] [] 0
    (styledTokens_ne_nil ranges) (by simp) (by simp) (by rw [lineWidth_nil]) (Or.inl rfl)
  simp only [List.flatten_nil, List.nil_append] at g5
  rw [heq]
  obtain ⟨hmem, hflat⟩ := wrapFinish_spec adv maxW _ g1 g4
  exact ⟨hmem, by rw [hflat, g5]⟩

/-- Claim C1, counterexample to the unamended claim: with no tokens at
all and a negative `max_width`, the single empty line the engine emits
has summed width `0 > max_width` yet is not a single over-wide token. -/
theorem wrap_line_width_bound_cex :
    [] ∈ wrap_line_with_ranges (fun _ => 1) (-1) [] ∧
    ¬ lineWidth (fun _ => 1) [] ≤ -1 ∧
    ∀ st t, ([] : List Tok) ≠ [(st, t)] := by
  refine ⟨by decide, by decide, ?_⟩
  intro st t h
  exact List.noConfusion h

/-- Witness for C1: the hypotheses hold at a concrete unit-advance font
and the theorem applies to a concrete range list. -/
theorem wrap_line_width_bound_witness :
    (∀ c : Char, 0 < (fun _ : Char => (1 : ℚ)) c) ∧
    ((∀ line ∈ wrap_line_with_ranges (fun _ : Char => (1 : ℚ)) 2
        [(⟨⟨255, 255, 255, 255⟩⟩, "ab cd".toList)],
      lineWidth (fun _ : Char => (1 : ℚ)) line ≤ 2 ∨
        (∃ st t, line = [(st, t)] ∧
          (2 : ℚ) < measure_text_width (fun _ : Char => (1 : ℚ)) t) ∨
        line = []) ∧
    (wrap_line_with_ranges (fun _ : Char => (1 : ℚ)) 2
        [(⟨⟨255, 255, 255, 255⟩⟩, "ab cd".toList)]).flatten =
      styledTokens [(⟨⟨255, 255, 255, 255⟩⟩, "ab cd".toList)]) :=
  ⟨fun _ => one_pos,
    wrap_line_width_bound (fun _ : Char => (1 : ℚ)) 2
      [(⟨⟨255, 255, 255, 255⟩⟩, "ab cd".toList)] (fun _ => one_pos)⟩

/-! ### Scrolling (claim C2) -/

theorem scrollStep_preserves (s : ScrollState) (e : ScrollEvent)
    (h0 : 0 ≤ s.scroll_offset_y) (h1 : s.scroll_offset_y ≤ s.max_scroll_offset_y) :
    0 ≤ (scrollStep s e).scroll_offset_y ∧
      (scrollStep s e).scroll_offset_y ≤ (scrollStep s e).max_scroll_offset_y := by
  have hm : 0 ≤ s.max_scroll_offset_y := le_trans h0 h1
  cases e with
  | axis a =>
    simp only [scrollStep]
    exact ⟨le_min (le_max_right _ _) hm, min_le_right _ _⟩
  | textUpdate total panelH auto =>
    by_cases hauto : auto = true
    · simp only [scrollStep, hauto, if_true]
      exact ⟨le_max_right _ _, le_refl _⟩
    · simp only [scrollStep, hauto, if_false]
      exact ⟨le_min h0 (le_max_right _ _), min_le_right _ _⟩

/-- Claim C2: starting from an in-range scroll offset, any sequence of
vertical-scroll axis events and text-update passes keeps
`scroll_offset_y` within `[0, max_scroll_offset_y]`. -/
theorem scroll_offset_in_range (s : ScrollState) (es : List ScrollEvent)
    (h0 : 0 ≤ s.scroll_offset_y) (h1 : s.scroll_offset_y ≤ s.max_scroll_offset_y) :
    0 ≤ (es.foldl scrollStep s).scroll_offset_y ∧
      (es.foldl scrollStep s).scroll_offset_y ≤
        (es.foldl scrollStep s).max_scroll_offset_y := by
  induction es generalizing s with
  | nil => exact ⟨h0, h1⟩
  | cons e rest ih =>
    rw [List.foldl_cons]
    obtain ⟨h0x, h1x⟩ := scrollStep_preserves s e h0 h1
    exact ih _ h0x h1x

/-- Witness for C2: a concrete in-range start, a scroll past the top, a
shrinking text update and an overshooting scroll all stay in range. -/
theorem scroll_offset_in_range_witness :
    (0 ≤ (⟨0, 10⟩ : ScrollState).scroll_offset_y ∧
      (⟨0, 10⟩ : ScrollState).scroll_offset_y ≤
        (⟨0, 10⟩ : ScrollState).max_scroll_offset_y) ∧
    (0 ≤ (([ScrollEvent.axis 7, ScrollEvent.textUpdate 30 25 false,
          ScrollEvent.axis (-100)]).foldl scrollStep
        (⟨0, 10⟩ : ScrollState)).scroll_offset_y ∧
      (([ScrollEvent.axis 7, ScrollEvent.textUpdate 30 25 false,
          ScrollEvent.axis (-100)]).foldl scrollStep
        (⟨0, 10⟩ : ScrollState)).scroll_offset_y ≤
        (([ScrollEvent.axis 7, ScrollEvent.textUpdate 30 25 false,
          ScrollEvent.axis (-100)]).foldl scrollStep
        (⟨0, 10⟩ : ScrollState)).max_scroll_offset_y) :=
  ⟨⟨by norm_num, by norm_num⟩,
    scroll_offset_in_range ⟨0, 10⟩ _ (by norm_num) (by norm_num)⟩

/-! ### Overlay height (claim C4) -/

theorem sizeStep_textUpdate_preserves (calcH : Nat → Str → Nat) (maxH : Nat)
    (s : SizeState) (t : Str)
    (h : s.height = min (calcH s.width s.text) maxH) :
    (sizeStep calcH maxH s (SizeEvent.textUpdate t)).height =
      min (calcH (sizeStep calcH maxH s (SizeEvent.textUpdate t)).width
        (sizeStep calcH maxH s (SizeEvent.textUpdate t)).text) maxH := by
  simp only [sizeStep]
  rcases eq_or_ne t s.text with he | hne
  · rw [if_neg (by simp [he])]
    exact h
  · rw [if_pos hne]

/-- Claim C4, counterexample to the unamended claim: a compositor
`Configure` event overwrites the height with the compositor-assigned
value, which need not equal `min(measured_content_height, max)`. -/
theorem height_min_cex :
    (([SizeEvent.configure 600 77]).foldl (sizeStep (fun _ _ => 100) 50)
        (initSize (fun _ _ => 100) 50 600 [])).height = 77 ∧
    (([SizeEvent.configure 600 77]).foldl (sizeStep (fun _ _ => 100) 50)
        (initSize (fun _ _ => 100) 50 600 [])).height ≠
      min ((fun (_ : Nat) (_ : Str) => 100)
        (([SizeEvent.configure 600 77]).foldl (sizeStep (fun _ _ => 100) 50)
          (initSize (fun _ _ => 100) 50 600 [])).width
        (([SizeEvent.configure 600 77]).foldl (sizeStep (fun _ _ => 100) 50)
          (initSize (fun _ _ => 100) 50 600 [])).text) 50 := by decide

/-- Claim C4 (amended): at startup and after any sequence of
text-update passes (no compositor `Configure` events, which overwrite
the height with the compositor-assigned size), the height equals
`min(measured_content_height, configured_max)`. -/
theorem height_eq_min_no_configure (calcH : Nat → Str → Nat) (maxH w0 : Nat)
    (t0 : Str) (es : List SizeEvent)
    (hev : ∀ e ∈ es, isTextUpdate e = true) :
    (es.foldl (sizeStep calcH maxH) (initSize calcH maxH w0 t0)).height =
      min (calcH (es.foldl (sizeStep calcH maxH) (initSize calcH maxH w0 t0)).width
        (es.foldl (sizeStep calcH maxH) (initSize calcH maxH w0 t0)).text) maxH := by
  have key : ∀ (l : List SizeEvent) (s : SizeState),
      (∀ e ∈ l, isTextUpdate e = true) →
      s.height = min (calcH s.width s.text) maxH →
      (l.foldl (sizeStep calcH maxH) s).height =
        min (calcH (l.foldl (sizeStep calcH maxH) s).width
          (l.foldl (sizeStep calcH maxH) s).text) maxH := by
    intro l
    induction l with
    | nil => intro s _ h; exact h
    | cons e rest ih =>
      intro s hev2 h
      rw [List.foldl_cons]
      cases e with
      | textUpdate t =>
        exact ih _ (fun x hx => hev2 x (by simp [hx]))
          (sizeStep_textUpdate_preserves calcH maxH s t h)
      | configure w hh =>
        have hfalse : isTextUpdate (SizeEvent.configure w hh) = true :=
          hev2 (SizeEvent.configure w hh) (List.mem_cons_self _ _)
        simp [isTextUpdate] at hfalse
  exact key es _ hev rfl

/-- Witness for C4: a concrete text-only event sequence, with the
height tracking `min(measured, max)` throughout. -/
theorem height_eq_min_no_configure_witness :
    (∀ e ∈ [SizeEvent.textUpdate "hello world".toList], isTextUpdate e = true) ∧
    (([SizeEvent.textUpdate "hello world".toList]).foldl
        (sizeStep (fun _ t => t.length) 5) (initSize (fun _ t => t.length) 5 600 [])).height =
      min ((fun (_ : Nat) (t : Str) => t.length)
        (([SizeEvent.textUpdate "hello world".toList]).foldl
          (sizeStep (fun _ t => t.length) 5) (initSize (fun _ t => t.length) 5 600 [])).width
        (([SizeEvent.textUpdate "hello world".toList]).foldl
          (sizeStep (fun _ t => t.length) 5) (initSize (fun _ t => t.length) 5 600 [])).text) 5 :=
  ⟨by decide,
    height_eq_min_no_configure (fun _ t => t.length) 5 600 [] _ (by decide)⟩

/-! ### Buffer lifecycle (claim C3) -/

/-- Claim C3, counterexample to the claim as stated: on a draw cycle
with a live previous buffer, the trace destroys the old buffer first —
before the replacement is created, attached or committed (and no
compositor acknowledgment exists in the cycle at all). -/
theorem buffer_destroy_order_cex :
    (draw_overlay true ⟨some 0, true, 1⟩).2 =
      [BufAction.destroyBuf 0, BufAction.createBuf 1, BufAction.attach 1,
        BufAction.damage, BufAction.commit] ∧
    (draw_overlay true ⟨some 0, true, 1⟩).2.head? = some (BufAction.destroyBuf 0) ∧
    BufAction.attach 1 ∈ (draw_overlay true ⟨some 0, true, 1⟩).2.tail := by decide

/-- Claim C3 (amended): on each visible draw cycle with a previous
buffer, that buffer is destroyed at the start of the cycle, strictly
before the replacement is created, attached and committed; when the
shared-memory allocation fails the old buffer has still already been
destroyed and nothing is attached. -/
theorem buffer_destroyed_before_attach (s : BufState) (b : Nat)
    (hv : s.visible = true) (hb : s.current_buffer = some b) :
    (draw_overlay true s).2 =
      [BufAction.destroyBuf b, BufAction.createBuf s.nextId,
        BufAction.attach s.nextId, BufAction.damage, BufAction.commit] ∧
    (draw_overlay false s).2 = [BufAction.destroyBuf b] := by
  constructor <;> simp [draw_overlay, hv, hb]

/-- Witness for C3: the amended trace at a concrete state holding
buffer 0. -/
theorem buffer_destroyed_before_attach_witness :
    ((⟨some 0, true, 1⟩ : BufState).visible = true ∧
      (⟨some 0, true, 1⟩ : BufState).current_buffer = some 0) ∧
    ((draw_overlay true ⟨some 0, true, 1⟩).2 =
      [BufAction.destroyBuf 0, BufAction.createBuf 1, BufAction.attach 1,
        BufAction.damage, BufAction.commit] ∧
    (draw_overlay false ⟨some 0, true, 1⟩).2 = [BufAction.destroyBuf 0]) :=
  ⟨⟨rfl, rfl⟩, buffer_destroyed_before_attach ⟨some 0, true, 1⟩ 0 rfl rfl⟩

/-! ### Workspace switching (claim C7) -/

/-- Claim C7: reading a nonzero workspace id different from the current
one resets the scroll offset to 0 and swaps the per-workspace text
source to `.tmp{new id}`, while the margins and the visibility flag are
untouched. -/
theorem workspace_switch_effects (s : WsState) (n : Nat)
    (hne : n ≠ s.current_workspace) (hpos : 0 < n) :
    (check_for_workspace_switch (some n) s).scroll_offset_y = 0 ∧
    (check_for_workspace_switch (some n) s).current_workspace = n ∧
    activeTextSource (check_for_workspace_switch (some n) s).current_workspace =
      ".tmp".toList ++ Nat.toDigits 10 n ∧
    (check_for_workspace_switch (some n) s).margin_x = s.margin_x ∧
    (check_for_workspace_switch (some n) s).margin_y = s.margin_y ∧
    (check_for_workspace_switch (some n) s).visible = s.visible := by
  simp [check_for_workspace_switch, hne, hpos, activeTextSource]

/-- Witness for C7: switching from workspace 1 to 3 at a concrete
state. -/
theorem workspace_switch_effects_witness :
    ((3 : Nat) ≠ (⟨1, 5, 20, 30, true, false⟩ : WsState).current_workspace ∧
      (0 : Nat) < 3) ∧
    ((check_for_workspace_switch (some 3) ⟨1, 5, 20, 30, true, false⟩).scroll_offset_y = 0 ∧
    (check_for_workspace_switch (some 3) ⟨1, 5, 20, 30, true, false⟩).current_workspace = 3 ∧
    activeTextSource
      (check_for_workspace_switch (some 3) ⟨1, 5, 20, 30, true, false⟩).current_workspace =
      ".tmp".toList ++ Nat.toDigits 10 3 ∧
    (check_for_workspace_switch (some 3) ⟨1, 5, 20, 30, true, false⟩).margin_x =
      (⟨1, 5, 20, 30, true, false⟩ : WsState).margin_x ∧
    (check_for_workspace_switch (some 3) ⟨1, 5, 20, 30, true, false⟩).margin_y =
      (⟨1, 5, 20, 30, true, false⟩ : WsState).margin_y ∧
    (check_for_workspace_switch (some 3) ⟨1, 5, 20, 30, true, false⟩).visible =
      (⟨1, 5, 20, 30, true, false⟩ : WsState).visible) :=
  ⟨⟨by decide, by decide⟩,
    workspace_switch_effects ⟨1, 5, 20, 30, true, false⟩ 3 (by decide) (by decide)⟩

/-! ### Dragging and margins (claim C8) -/

theorem update_drag_in_range (s : PtrState) (sx sy : ℚ)
    (hd : s.drag.is_dragging = true) :
    marginsInRange (update_drag s sx sy) := by
  unfold update_drag
  rw [if_neg (by simp [hd])]
  refine ⟨le_min (le_max_right _ _) (le_max_right _ _), ?_,
    le_min (le_max_right _ _) (le_max_right _ _), ?_⟩
  · exact min_le_right _ _
  · exact min_le_right _ _

theorem ptrStep_preserves (s : PtrState) (e : PtrEvent) (h : marginsInRange s) :
    marginsInRange (ptrStep s e) := by
  cases e with
  | enter x y => exact h
  | leave => exact h
  | motion x y =>
    simp only [ptrStep]
    by_cases hd : ({ s with pointer_x := x, pointer_y := y } : PtrState).drag.is_dragging
    · rw [if_pos hd]
      exact update_drag_in_range _ x y hd
    · rw [if_neg hd]
      exact h
  | button code pressed =>
    simp only [ptrStep]
    split_ifs <;> exact h
  | axis a => exact h

/-- Claim C8, counterexample to the claim as stated: the startup path
seeds margins straight from the drag log without clamping, so with the
single (well-formed) log line `Dragging: x=9999, y=0` and no drag-motion
events at all, `margin_x = 9999` exceeds
`output_width − overlay_width = 1320`. -/
theorem drag_margin_cex :
    load_margins_from_log ["Dragging: x=9999, y=0".toList] = some (9999, 0) ∧
    (List.foldl ptrStep
        ⟨⟨false, 0, 0⟩, 9999, 0, 0, 0, 1920, 1080, 600, 400⟩ []).margin_x >
      maxMarginX ⟨⟨false, 0, 0⟩, 9999, 0, 0, 0, 1920, 1080, 600, 400⟩ := by decide

/-- Claim C8 (amended): from margins already inside
`[0, output_dim − overlay_dim]` every sequence of pointer/drag events
keeps them inside, and every motion processed while dragging clamps the
margins into that range even from an arbitrary state; only the
unclamped log-seeded startup margins may lie outside, until the first
dragging motion. -/
theorem drag_margin_in_range (s : PtrState) (es : List PtrEvent)
    (h : marginsInRange s) :
    marginsInRange (es.foldl ptrStep s) ∧
    ∀ (s2 : PtrState) (x y : ℚ), s2.drag.is_dragging = true →
      marginsInRange (update_drag s2 x y) := by
  constructor
  · induction es generalizing s with
    | nil => exact h
    | cons e rest ih =>
      rw [List.foldl_cons]
      exact ih _ (ptrStep_preserves s e h)
  · intro s2 x y hd
    exact update_drag_in_range s2 x y hd

/-- Witness for C8: a full press–drag–release sequence from in-range
margins stays in range. -/
theorem drag_margin_in_range_witness :
    marginsInRange (⟨⟨false, 0, 0⟩, 20, 20, 0, 0, 1920, 1080, 600, 400⟩ : PtrState) ∧
    (marginsInRange (([PtrEvent.enter 5 5, PtrEvent.button 0x110 true,
        PtrEvent.motion 4000 3000, PtrEvent.button 0x110 false]).foldl ptrStep
        ⟨⟨false, 0, 0⟩, 20, 20, 0, 0, 1920, 1080, 600, 400⟩) ∧
      ∀ (s2 : PtrState) (x y : ℚ), s2.drag.is_dragging = true →
        marginsInRange (update_drag s2 x y)) :=
  ⟨by decide,
    drag_margin_in_range ⟨⟨false, 0, 0⟩, 20, 20, 0, 0, 1920, 1080, 600, 400⟩
      [PtrEvent.enter 5 5, PtrEvent.button 0x110 true,
        PtrEvent.motion 4000 3000, PtrEvent.button 0x110 false] (by decide)⟩

/-! ### Text loading fallback (claim C9) -/

/-- Claim C9: when the per-workspace text source is missing, unreadable
or whitespace-only, the adopted text is the static keybinding/help
listing; the loading path is total, never fatal. -/
theorem missing_text_defaults (content : Option Str)
    (sh tt ts ra so cl sw : Str)
    (h : content = none ∨ ∃ c, content = some c ∧ rustTrim c = []) :
    update_text_result content sh tt ts ra so cl sw =
      get_default_text sh tt ts ra so cl sw := by
  rcases h with h | ⟨c, rfl, hc⟩
  · rw [h]
    rfl
  · simp [update_text_result, load_text_from_log, hc]

/-- Witness for C9: a whitespace-only file body yields the help
listing. -/
theorem missing_text_defaults_witness :
    ((some "  \n ".toList : Option Str) = none ∨
      ∃ c, (some "  \n ".toList : Option Str) = some c ∧ rustTrim c = []) ∧
    update_text_result (some "  \n ".toList) "E".toList "T".toList "P".toList
        "A".toList "S".toList "C".toList "W".toList =
      get_default_text "E".toList "T".toList "P".toList
        "A".toList "S".toList "C".toList "W".toList :=
  ⟨Or.inr ⟨"  \n ".toList, rfl, by decide⟩,
    missing_text_defaults (some "  \n ".toList) _ _ _ _ _ _ _
      (Or.inr ⟨"  \n ".toList, rfl, by decide⟩)⟩

/-! ### Markdown segmentation on the fenced example (claim C6) -/

/-- Claim C6, counterexample to the claim as stated: segmenting
`"a\n```py\nprint(1)\n```\nb"` does not give `Text("b")` as the last
block — the paragraph separator appended at `End(Paragraph)` is kept by
the final untrimmed push, producing `Text("b\n\n")`. -/
theorem fence_example_cex :
    parse_markdown (modelEvents "a\n```py\nprint(1)\n```\nb".toList) ≠
      [ContentBlock.text "a".toList,
        ContentBlock.code "py".toList "print(1)\n".toList,
        ContentBlock.text "b".toList] := by decide

/-- Claim C6 (amended): segmenting `"a\n```py\nprint(1)\n```\nb"`
yields exactly `Text("a")`, `Code("py", "print(1)\n")` and
`Text("b\n\n")` in that order — the trailing paragraph separator stays
on the final Text block. -/
theorem fence_example_blocks :
    parse_markdown (modelEvents "a\n```py\nprint(1)\n```\nb".toList) =
      [ContentBlock.text "a".toList,
        ContentBlock.code "py".toList "print(1)\n".toList,
        ContentBlock.text "b\n\n".toList] := by decide

/-! ### Markdown segmentation without fences (claim C5) -/

/-- Claim C5, counterexample to the claim as stated: the fence-free
input `"a"` segments to one Text block `"a\n\n"`, not to the trimmed
input `"a"` — `End(Paragraph)` appends a blank-line separator and the
final push does not trim. -/
theorem no_fence_single_text_cex :
    parse_markdown (modelEvents "a".toList) ≠
      [ContentBlock.text (rustTrim "a".toList)] := by decide

theorem splitLinesGo_no_newline : ∀ (cs : List Char) (cur : Str),
    '\n' ∉ cur → ∀ l ∈ splitLinesGo cs cur, '\n' ∉ l := by
  intro cs
  induction cs with
  | nil =>
    intro cur hcur l hl
    simp only [splitLinesGo, List.mem_singleton] at hl
    subst hl
    exact hcur
  | cons c rest ih =>
    intro cur hcur l hl
    simp only [splitLinesGo] at hl
    split_ifs at hl with hc
    · rcases List.mem_cons.mp hl with h | h
      · subst h
        exact hcur
      · exact ih [] (by simp) l h
    · refine ih (cur ++ [c]) ?_ l hl
      intro hmem
      rcases List.mem_append.mp hmem with h | h
      · exact hcur h
      · simp at h
        exact hc h.symm

theorem isBlankLine_false_ne_nil (l : Str) (h : isBlankLine l = false) : l ≠ [] := by
  intro hl
  subst hl
  simp [isBlankLine] at h

theorem paragraphsGo_ne_nil : ∀ (ls : List Str) (cur : List Str),
    ∀ p ∈ paragraphsGo ls cur, p ≠ [] := by
  intro ls
  induction ls with
  | nil =>
    intro cur p hp
    simp only [paragraphsGo] at hp
    by_cases hc : cur.isEmpty = true
    · rw [if_pos hc] at hp
      simp at hp
    · rw [if_neg hc] at hp
      simp only [List.mem_singleton] at hp
      subst hp
      simpa [List.isEmpty_iff] using hc
  | cons l rest ih =>
    intro cur p hp
    simp only [paragraphsGo] at hp
    by_cases hb : isBlankLine l = true
    · rw [if_pos hb] at hp
      rcases List.mem_append.mp hp with h | h
      · by_cases hc : cur.isEmpty = true
        · rw [if_pos hc] at h
          simp at h
        · rw [if_neg hc] at h
          simp only [List.mem_singleton] at h
          subst h
          simpa [List.isEmpty_iff] using hc
      · exact ih [] p h
    · rw [if_neg hb] at hp
      exact ih (cur ++ [l]) p hp

theorem paragraphsGo_lines : ∀ (ls : List Str) (cur : List Str),
    (∀ l ∈ ls, '\n' ∉ l) →
    (∀ l ∈ cur, isBlankLine l = false ∧ '\n' ∉ l) →
    ∀ p ∈ paragraphsGo ls cur, ∀ l ∈ p, isBlankLine l = false ∧ '\n' ∉ l := by
  intro ls
  induction ls with
  | nil =>
    intro cur _ hcur p hp l hl
    simp only [paragraphsGo] at hp
    by_cases hc : cur.isEmpty = true
    · rw [if_pos hc] at hp
      simp at hp
    · rw [if_neg hc] at hp
      simp only [List.mem_singleton] at hp
      subst hp
      exact hcur l hl
  | cons x rest ih =>
    intro cur hls hcur p hp l hl
    have hrest : ∀ y ∈ rest, '\n' ∉ y := fun y hy => hls y (by simp [hy])
    simp only [paragraphsGo] at hp
    by_cases hb : isBlankLine x = true
    · rw [if_pos hb] at hp
      rcases List.mem_append.mp hp with h | h
      · by_cases hc : cur.isEmpty = true
        · rw [if_pos hc] at h
          simp at h
        · rw [if_neg hc] at h
          simp only [List.mem_singleton] at h
          subst h
          exact hcur l hl
      · exact ih [] hrest (by simp) p h l hl
    · rw [if_neg hb] at hp
      refine ih (cur ++ [x]) hrest ?_ p hp l hl
      intro y hy
      rcases List.mem_append.mp hy with h | h
      · exact hcur y h
      · simp only [List.mem_singleton] at h
        subst h
        exact ⟨by simpa using hb, hls _ (List.mem_cons_self _ _)⟩

theorem segLinesGo_no_fence : ∀ (ls : List Str) (cur : List Str),
    (∀ l ∈ ls, isFenceLine l = false) →
    segLinesGo ls none cur = (paragraphsGo ls cur).map MdSeg.para := by
  intro ls
  induction ls with
  | nil =>
    intro cur _
    simp only [segLinesGo, paragraphsGo]
    split <;> simp
  | cons l rest ih =>
    intro cur hnf
    have hl : isFenceLine l = false := hnf l (by simp)
    have hrest : ∀ x ∈ rest, isFenceLine x = false := fun x hx => hnf x (by simp [hx])
    by_cases hb : isBlankLine l = true
    · simp only [segLinesGo, paragraphsGo, hl, hb, Bool.false_eq_true, if_false, if_true]
      rw [ih [] hrest, List.map_append]
      congr 1
      split <;> simp
    · have hb2 : isBlankLine l = false := by simpa using hb
      simp only [segLinesGo, paragraphsGo, hl, hb2, Bool.false_eq_true, if_false]
      exact ih (cur ++ [l]) hrest

theorem mdFold_para_core : ∀ (p : List Str) (st : MdAcc),
    st.in_code_block = false → p ≠ [] →
    List.foldl mdStep st (List.intersperse MdEvent.softBreak (p.map MdEvent.textEv)) =
      { st with current_text := st.current_text ++ spaceJoin p } := by
  intro p
  induction p with
  | nil =>
    intro st _ hp
    exact absurd rfl hp
  | cons l rest ih =>
    intro st hin _
    cases rest with
    | nil =>
      simp only [List.map_cons, List.map_nil, List.intersperse_singleton,
        List.foldl_cons, List.foldl_nil]
      simp [mdStep, hin, spaceJoin]
    | cons r t =>
      simp only [List.map_cons]
      rw [List.intersperse_cons_cons]
      simp only [List.foldl_cons]
      have h1 : mdStep st (MdEvent.textEv l) =
          { st with current_text := st.current_text ++ l } := by
        simp [mdStep, hin]
      have h2 : mdStep { st with current_text := st.current_text ++ l }
          MdEvent.softBreak =
          { st with current_text := st.current_text ++ l ++ [' '] } := by
        simp [mdStep, hin]
      rw [h1, h2, ← List.map_cons, ih _ (by simp [hin]) (by simp)]
      simp [spaceJoin, List.append_assoc]

theorem spaceJoin_last : ∀ (p : List Str), p ≠ [] →
    (∀ l ∈ p, isBlankLine l = false ∧ '\n' ∉ l) →
    ∃ c, (spaceJoin p).getLast? = some c ∧ c ≠ '\n' := by
  intro p
  induction p with
  | nil =>
    intro h _
    exact absurd rfl h
  | cons l rest ih =>
    intro _ hl
    cases rest with
    | nil =>
      have hlne : l ≠ [] := isBlankLine_false_ne_nil l (hl l (by simp)).1
      refine ⟨l.getLast hlne, ?_, ?_⟩
      · show (spaceJoin [l]).getLast? = _
        rw [show spaceJoin [l] = l from rfl]
        exact List.getLast?_eq_getLast_of_ne_nil hlne
      · intro hc
        have hmem : '\n' ∈ l := hc ▸ List.getLast_mem hlne
        exact (hl l (by simp)).2 hmem
    | cons r t =>
      obtain ⟨c, hc1, hc2⟩ := ih (by simp) (fun x hx => hl x (by simp [hx]))
      refine ⟨c, ?_, hc2⟩
      have hne : spaceJoin (r :: t) ≠ [] := by
        intro h
        rw [h] at hc1
        simp at hc1
      rw [show spaceJoin (l :: r :: t) = l ++ [' '] ++ spaceJoin (r :: t) from rfl,
        List.getLast?_append_of_ne_nil _ hne]
      exact hc1

theorem endsWith_nn_false (x : Str) (c : Char) (hc : x.getLast? = some c)
    (hne : c ≠ '\n') : strEndsWith x "\n\n".toList = false := by
  unfold strEndsWith
  rw [Bool.eq_false_iff]
  intro hcon
  have hsuf : "\n\n".toList <:+ x := List.isSuffixOf_iff_suffix.mp hcon
  obtain ⟨t, ht⟩ := hsuf
  rw [← ht, List.getLast?_append_of_ne_nil t (by simp)] at hc
  simp at hc
  exact hne hc.symm

theorem mdFold_para (st : MdAcc) (p : List Str)
    (hin : st.in_code_block = false) (hp : p ≠ [])
    (hl : ∀ l ∈ p, isBlankLine l = false ∧ '\n' ∉ l) :
    List.foldl mdStep st (segEvents (MdSeg.para p)) =
      { st with current_text := st.current_text ++ spaceJoin p ++ "\n\n".toList } := by
  obtain ⟨c, hc1, hc2⟩ := spaceJoin_last p hp hl
  have hjne : spaceJoin p ≠ [] := by
    intro h
    rw [h] at hc1
    simp at hc1
  simp only [segEvents, List.foldl_cons]
  rw [show mdStep st MdEvent.startPara = st from rfl, List.foldl_append,
    mdFold_para_core p st hin hp]
  simp only [List.foldl_cons, List.foldl_nil]
  have hlast : (st.current_text ++ spaceJoin p).getLast? = some c := by
    rw [List.getLast?_append_of_ne_nil _ hjne]
    exact hc1
  have hend : strEndsWith (st.current_text ++ spaceJoin p) "\n\n".toList = false :=
    endsWith_nn_false _ c hlast hc2
  simp only [mdStep]
  rw [if_pos ⟨by simp [hin], by simpa using hend⟩]

theorem mdFold_paras : ∀ (ps : List (List Str)) (st : MdAcc),
    st.in_code_block = false →
    (∀ p ∈ ps, p ≠ []) →
    (∀ p ∈ ps, ∀ l ∈ p, isBlankLine l = false ∧ '\n' ∉ l) →
    List.foldl mdStep st ((ps.map (fun p => segEvents (MdSeg.para p))).flatten) =
      { st with current_text := st.current_text ++
          (ps.map (fun p => spaceJoin p ++ "\n\n".toList)).flatten } := by
  intro ps
  induction ps with
  | nil =>
    intro st _ _ _
    simp
  | cons p rest ih =>
    intro st hin hne hl
    simp only [List.map_cons, List.flatten_cons]
    rw [List.foldl_append, mdFold_para st p hin (hne p (by simp)) (hl p (by simp)),
      ih _ (by simp [hin]) (fun q hq => hne q (by simp [hq]))
        (fun q hq l hlq => hl q (by simp [hq]) l hlq)]
    simp [List.append_assoc]

/-- Claim C5 (amended): for every input with no fence lines the
segmenter returns at most one Text block — none when every line is
blank, otherwise exactly one whose body is the input's paragraphs with
internal line breaks replaced by single spaces and each paragraph
followed by a blank-line separator; the body is not, in general, the
trimmed input. -/
theorem no_fence_single_text_block (s : Str)
    (hnf : ∀ l ∈ splitLines s, isFenceLine l = false) :
    parse_markdown (modelEvents s) =
      if (paragraphsGo (splitLines s) []).isEmpty then []
      else [ContentBlock.text
        (((paragraphsGo (splitLines s) []).map
          (fun p => spaceJoin p ++ "\n\n".toList)).flatten)] := by
  have hlines : ∀ l ∈ splitLines s, '\n' ∉ l :=
    splitLinesGo_no_newline s [] (by simp)
  have hne := paragraphsGo_ne_nil (splitLines s) []
  have hl := paragraphsGo_lines (splitLines s) [] hlines (by simp)
  have hfold := mdFold_paras (paragraphsGo (splitLines s) [])
    ⟨[], [], [], [], false⟩ rfl hne hl
  unfold parse_markdown modelEvents
  rw [segLinesGo_no_fence (splitLines s) [] hnf, List.map_map,
    show ((paragraphsGo (splitLines s) []).map (segEvents ∘ MdSeg.para)) =
      ((paragraphsGo (splitLines s) []).map (fun p => segEvents (MdSeg.para p)))
      from rfl,
    hfold]
  cases hps : paragraphsGo (splitLines s) [] with
  | nil => simp
  | cons p rest =>
    have hbody : ((p :: rest).map (fun q => spaceJoin q ++ "\n\n".toList)).flatten ≠ [] := by
      simp only [List.map_cons, List.flatten_cons]
      intro h
      rcases List.append_eq_nil.mp h with ⟨h1, _⟩
      rcases List.append_eq_nil.mp h1 with ⟨_, h2⟩
      simp at h2
    simp only [List.nil_append, List.isEmpty_cons, if_false, Bool.false_eq_true]
    rw [if_pos (by simp [List.isEmpty_iff])]

/-- Witness for C5: the fence-free input `"x\ny\n\nz"` — two paragraphs,
one Text block `"x y\n\nz\n\n"`. -/
theorem no_fence_single_text_block_witness :
    (∀ l ∈ splitLines "x\ny\n\nz".toList, isFenceLine l = false) ∧
    parse_markdown (modelEvents "x\ny\n\nz".toList) =
      (if (paragraphsGo (splitLines "x\ny\n\nz".toList) []).isEmpty then []
       else [ContentBlock.text
        (((paragraphsGo (splitLines "x\ny\n\nz".toList) []).map
          (fun p => spaceJoin p ++ "\n\n".toList)).flatten)]) :=
  ⟨by decide, no_fence_single_text_block "x\ny\n\nz".toList (by decide)⟩

end Aerogel
